import Mathlib

/-!
Verification of the Kaprekar constant explorer (`kaprekar_explorer.py`).

The algorithmic core of the program consists of three functions:

* `validate_input`: parses user text as a Python `int` and checks that it is a
  4-digit number with four pairwise-distinct digits;
* `kaprekar_step`: zero-pads a number to 4 decimal digits, sorts the digits
  descending and ascending, reinterprets both as integers and subtracts;
* `explore_kaprekar`: iterates `kaprekar_step` from a starting number until
  6174 is reached or a step ceiling is hit, returning the step count, the
  visited sequence and a convergence flag.

They are embedded below as executable Lean functions over `Nat`, `Int`,
`List` and `String`, following the Python source line by line.
-/

namespace KaprekarExplorer

/-! ### Digit strings -/

/-- Reversed (little-endian) list of the base-10 digits of `n`, driven by an
explicit fuel argument so that the definition is structurally recursive; any
`fuel ≥ n` yields the digits of `n`. -/
def toDigitsRevAux : Nat → Nat → List Nat
  | _, 0 => []
  | 0, _ + 1 => []
  | fuel + 1, n + 1 => ((n + 1) % 10) :: toDigitsRevAux fuel ((n + 1) / 10)

/-- Reversed (little-endian) list of the base-10 digits of `n`; empty for 0.
`n` itself is always enough fuel. -/
def toDigitsRev (n : Nat) : List Nat := toDigitsRevAux n n

/-- Big-endian digit list of `n`, zero-padded on the left to length at least 4:
the digit-value view of Python's `str(n).zfill(4)` for a nonnegative `n`. -/
def digitStr (n : Nat) : List Nat :=
  List.replicate (4 - (toDigitsRev n).length) 0 ++ (toDigitsRev n).reverse

/-- Value of a big-endian digit list under base-10 integer reinterpretation:
Python's `int(''.join(...))`, under which leading zeros collapse. -/
def ofDigits (ds : List Nat) : Nat := ds.foldl (fun a d => 10 * a + d) 0

/-! ### The Kaprekar step (`kaprekar_step` of the source) -/

/-- `A` of the Python source: digits of `n` (zero-padded to 4) sorted in
descending order, read back as an integer. -/
def A (n : Nat) : Nat := ofDigits (List.insertionSort (· ≥ ·) (digitStr n))

/-- `B` of the Python source: digits of `n` (zero-padded to 4) sorted in
ascending order, read back as an integer. -/
def B (n : Nat) : Nat := ofDigits (List.insertionSort (· ≤ ·) (digitStr n))

/-- One step of the Kaprekar process: `A - B`.  Stated over `Nat` with
truncated subtraction; `B_le_A` below shows `B n ≤ A n` on the program's
domain, so this agrees with Python's integer subtraction there (the agreement
is recorded as part of the range theorem for claim C10). -/
def kaprekar_step (n : Nat) : Nat := A n - B n

/-! ### The Python `int()` parser, restricted to ASCII text -/

/-- The ASCII whitespace characters stripped by Python's `int()`. -/
def isPySpace (c : Char) : Bool :=
  c = ' ' || c = '\t' || c = '\n' || c = '\r' || c = '\x0b' || c = '\x0c'

/-- Strip leading and trailing whitespace, as `int()` does before parsing. -/
def pyStrip (l : List Char) : List Char :=
  ((l.dropWhile isPySpace).reverse.dropWhile isPySpace).reverse

/-- Numeric value of an ASCII digit character. -/
def digitVal (c : Char) : Nat := c.toNat - 48

/-- Digit-sequence parser: after an initial digit, accepts further digits,
with single underscores allowed only between digits (Python's grouping
syntax for integer literals accepted by `int()`). -/
def parseDigitsAux : Nat → List Char → Option Nat
  | acc, [] => some acc
  | acc, c :: rest =>
    if c.isDigit then parseDigitsAux (10 * acc + digitVal c) rest
    else if c = '_' then
      match rest with
      | [] => none
      | d :: rest2 =>
        if d.isDigit then parseDigitsAux (10 * acc + digitVal d) rest2 else none
    else none

/-- Parse a nonempty digit sequence (no leading underscore or sign). -/
def parseDigits : List Char → Option Nat
  | [] => none
  | c :: rest => if c.isDigit then parseDigitsAux (digitVal c) rest else none

/-- Sign handling of Python's `int()`: at most one leading `+` or `-`
directly before the digit sequence. -/
def pyIntAux : List Char → Option Int
  | [] => none
  | c :: rest =>
    if c = '+' then (parseDigits rest).map (fun n => (n : Int))
    else if c = '-' then (parseDigits rest).map (fun n => -(n : Int))
    else (parseDigits (c :: rest)).map (fun n => (n : Int))

/-- Python's `int(s)` on ASCII text: strip surrounding whitespace, allow one
leading sign, then a digit sequence; `none` models the `ValueError` branch. -/
def pyInt (s : String) : Option Int := pyIntAux (pyStrip s.data)

/-- The ASCII character of a digit value, as produced by Python's `str`. -/
def digitChar (d : Nat) : Char := Char.ofNat (48 + d)

/-- Python's `str(n)` for a nonnegative integer `n`. -/
def natRepr (n : Nat) : String :=
  if n = 0 then String.mk [digitChar 0]
  else String.mk ((toDigitsRev n).reverse.map digitChar)

/-! ### The validator (`validate_input` of the source) -/

/-- The three user-input failures of `validate_input`, one per error message
of the source. -/
inductive ValidationError where
  | NotANumber
  | WrongDigitCount
  | RepeatedDigits
deriving DecidableEq

/-- `validate_input` of the Python source: parse the text as an integer,
require `1000 ≤ v ≤ 9999`, and require the four zero-padded digits to be
pairwise distinct (`len(set(digits)) == 4`, embedded via `List.dedup`). -/
def validate_input (number_str : String) : Except ValidationError Int :=
  match pyInt number_str with
  | none => Except.error ValidationError.NotANumber
  | some number =>
    if number < 1000 ∨ 9999 < number then Except.error ValidationError.WrongDigitCount
    else if (digitStr number.toNat).dedup.length ≠ 4 then
      Except.error ValidationError.RepeatedDigits
    else Except.ok number

/-! ### The exploration loop (`explore_kaprekar` of the source) -/

/-- The `while steps < max_steps` loop of `explore_kaprekar`, with the
remaining iteration budget `max_steps - steps` made explicit as fuel.  Each
iteration first tests for 6174 (breaking without counting a step), otherwise
appends `kaprekar_step` of the current number and counts one step; on exit
the flag `current_number == 6174` is computed. -/
def exploreLoop : Nat → Nat → List Nat → Nat → Nat × List Nat × Bool
  | 0, current_number, sequence, steps =>
    (steps, sequence, decide (current_number = 6174))
  | fuel + 1, current_number, sequence, steps =>
    if current_number = 6174 then (steps, sequence, decide (current_number = 6174))
    else
      exploreLoop fuel (kaprekar_step current_number)
        (sequence ++ [kaprekar_step current_number]) (steps + 1)

/-- `explore_kaprekar` of the Python source: returns
`(steps, sequence, reached_constant)`. -/
def explore_kaprekar (starting_number : Nat) (max_steps : Nat) : Nat × List Nat × Bool :=
  exploreLoop max_steps starting_number [starting_number] 0

/-! ### Digit lemmas -/

theorem toDigitsRevAux_lt_ten : ∀ (fuel n : Nat), ∀ d ∈ toDigitsRevAux fuel n, d < 10 := by
  intro fuel
  induction fuel with
  | zero => intro n d hd; cases n <;> simp [toDigitsRevAux] at hd
  | succ f ih =>
    intro n d hd
    cases n with
    | zero => simp [toDigitsRevAux] at hd
    | succ m =>
      simp only [toDigitsRevAux, List.mem_cons] at hd
      rcases hd with h | h
      · subst h; exact Nat.mod_lt _ (by norm_num)
      · exact ih _ _ h

theorem toDigitsRevAux_length :
    ∀ (fuel n k : Nat), n < 10 ^ k → (toDigitsRevAux fuel n).length ≤ k := by
  intro fuel
  induction fuel with
  | zero => intro n k _; cases n <;> simp [toDigitsRevAux]
  | succ f ih =>
    intro n k h
    cases n with
    | zero => simp [toDigitsRevAux]
    | succ m =>
      cases k with
      | zero => simp [Nat.lt_one_iff] at h
      | succ k =>
        simp only [toDigitsRevAux, List.length_cons]
        have hq : (m + 1) / 10 < 10 ^ k :=
          (Nat.div_lt_iff_lt_mul (by norm_num)).mpr (by rw [← pow_succ]; exact h)
        exact Nat.succ_le_succ (ih _ _ hq)

theorem ofDigits_toDigitsRevAux :
    ∀ (fuel n : Nat), n ≤ fuel → ofDigits (toDigitsRevAux fuel n).reverse = n := by
  intro fuel
  induction fuel with
  | zero =>
    intro n h
    interval_cases n
    simp [toDigitsRevAux, ofDigits]
  | succ f ih =>
    intro n h
    cases n with
    | zero => simp [toDigitsRevAux, ofDigits]
    | succ m =>
      have hq : (m + 1) / 10 ≤ f := by
        have := Nat.div_lt_self (Nat.succ_pos m) (by norm_num : (1 : Nat) < 10)
        omega
      simp only [toDigitsRevAux, List.reverse_cons]
      show ofDigits ((toDigitsRevAux f ((m + 1) / 10)).reverse ++ [(m + 1) % 10]) = m + 1
      rw [ofDigits, List.foldl_append]
      simp only [List.foldl_cons, List.foldl_nil]
      rw [show List.foldl (fun a d => 10 * a + d) 0 (toDigitsRevAux f ((m + 1) / 10)).reverse
            = ofDigits (toDigitsRevAux f ((m + 1) / 10)).reverse from rfl]
      rw [ih _ hq]
      exact Nat.div_add_mod (m + 1) 10

theorem toDigitsRev_length (n : Nat) (h : n ≤ 9999) : (toDigitsRev n).length ≤ 4 := by
  have h4 : (10 : Nat) ^ 4 = 10000 := by norm_num
  exact toDigitsRevAux_length n n 4 (by omega)

theorem digitStr_length (n : Nat) (h : n ≤ 9999) : (digitStr n).length = 4 := by
  have hlen := toDigitsRev_length n h
  simp only [digitStr, List.length_append, List.length_replicate, List.length_reverse]
  omega

theorem digitStr_lt_ten (n : Nat) : ∀ d ∈ digitStr n, d < 10 := by
  intro d hd
  simp only [digitStr, List.mem_append, List.mem_replicate, List.mem_reverse] at hd
  rcases hd with ⟨-, rfl⟩ | h
  · norm_num
  · exact toDigitsRevAux_lt_ten n n d h

theorem ofDigits_toDigitsRev_reverse (n : Nat) : ofDigits (toDigitsRev n).reverse = n :=
  ofDigits_toDigitsRevAux n n (Nat.le_refl n)

/-! ### Structure of the two sorts, and range of `kaprekar_step` -/

theorem exists_four (l : List Nat) (h : l.length = 4) :
    ∃ a b c d : Nat, l = [a, b, c, d] := by
  rcases l with - | ⟨a, - | ⟨b, - | ⟨c, - | ⟨d, - | ⟨e, t⟩⟩⟩⟩⟩ <;> simp_all

theorem sort_structure (n : Nat) (h : n ≤ 9999) :
    ∃ a b c d : Nat, a ≤ b ∧ b ≤ c ∧ c ≤ d ∧ d ≤ 9 ∧
      List.insertionSort (· ≤ ·) (digitStr n) = [a, b, c, d] ∧
      List.insertionSort (· ≥ ·) (digitStr n) = [d, c, b, a] := by
  have hperm := List.perm_insertionSort (· ≤ ·) (digitStr n)
  have hsorted := List.sorted_insertionSort (· ≤ ·) (digitStr n)
  have hlen4 : (List.insertionSort (· ≤ ·) (digitStr n)).length = 4 := by
    rw [hperm.length_eq, digitStr_length n h]
  obtain ⟨a, b, c, d, habcd⟩ := exists_four _ hlen4
  rw [habcd] at hperm hsorted
  have hord : a ≤ b ∧ b ≤ c ∧ c ≤ d := by
    simp only [List.sorted_cons, List.mem_cons] at hsorted
    exact ⟨hsorted.1 b (by simp), hsorted.2.1 c (by simp), hsorted.2.2.1 d (by simp)⟩
  have hd9 : d ≤ 9 := by
    have hdmem : d ∈ digitStr n := hperm.subset (by simp)
    have := digitStr_lt_ten n d hdmem
    omega
  obtain ⟨hab, hbc, hcd⟩ := hord
  refine ⟨a, b, c, d, hab, hbc, hcd, hd9, habcd, ?_⟩
  haveI : IsAntisymm Nat (· ≥ ·) := ⟨fun x y h1 h2 => Nat.le_antisymm h2 h1⟩
  have p1 : (List.insertionSort (· ≥ ·) (digitStr n)).Perm (digitStr n) :=
    List.perm_insertionSort (· ≥ ·) (digitStr n)
  have p3 : List.Perm [a, b, c, d] [d, c, b, a] := by
    simpa using List.reverse_perm [d, c, b, a]
  have hsdesc : List.Sorted (· ≥ ·) [d, c, b, a] := by
    simp only [List.sorted_cons, List.mem_cons]
    constructor
    · intro x hx
      rcases hx with rfl | rfl | rfl | hx
      · omega
      · omega
      · omega
      · simp at hx
    constructor
    · intro x hx
      rcases hx with rfl | rfl | hx
      · omega
      · omega
      · simp at hx
    constructor
    · intro x hx
      rcases hx with rfl | hx
      · omega
      · simp at hx
    simp
  exact List.eq_of_perm_of_sorted ((p1.trans hperm.symm).trans p3)
    (List.sorted_insertionSort (· ≥ ·) (digitStr n)) hsdesc

theorem ofDigits_four (a b c d : Nat) :
    ofDigits [a, b, c, d] = 1000 * a + 100 * b + 10 * c + d := by
  simp only [ofDigits, List.foldl_cons, List.foldl_nil]
  ring

theorem B_le_A (n : Nat) (h : n ≤ 9999) : B n ≤ A n ∧ A n ≤ 9999 := by
  obtain ⟨a, b, c, d, hab, hbc, hcd, hd9, hasc, hdesc⟩ := sort_structure n h
  rw [A, B, hasc, hdesc, ofDigits_four, ofDigits_four]
  omega

/-! ### Invariants of the exploration loop -/

theorem exploreLoop_spec :
    ∀ (fuel current steps : Nat) (seq : List Nat),
      seq.getLast? = some current →
      ∃ t : List Nat,
        exploreLoop fuel current seq steps =
            (steps + t.length, seq ++ t, decide ((seq ++ t).getLast? = some 6174)) ∧
        t.length ≤ fuel ∧
        (List.Chain' (fun x y => y = kaprekar_step x) seq →
          List.Chain' (fun x y => y = kaprekar_step x) (seq ++ t)) := by
  intro fuel
  induction fuel with
  | zero =>
    intro current steps seq hlast
    refine ⟨[], ?_, Nat.le_refl 0, fun hc => by simpa using hc⟩
    have h6 : (seq.getLast? = some 6174) ↔ (current = 6174) := by
      rw [hlast, Option.some_inj]
    simp [exploreLoop, h6]
  | succ f ih =>
    intro current steps seq hlast
    by_cases hc : current = 6174
    · refine ⟨[], ?_, Nat.zero_le _, fun hch => by simpa using hch⟩
      have h6 : (seq.getLast? = some 6174) ↔ (current = 6174) := by
        rw [hlast, Option.some_inj]
      simp [exploreLoop, hc, h6]
    · have hstep : exploreLoop (f + 1) current seq steps =
          exploreLoop f (kaprekar_step current) (seq ++ [kaprekar_step current]) (steps + 1) := by
        simp [exploreLoop, hc]
      obtain ⟨t, heq, hlen, hch⟩ :=
        ih (kaprekar_step current) (steps + 1) (seq ++ [kaprekar_step current])
          (List.getLast?_concat seq)
      refine ⟨kaprekar_step current :: t, ?_, by simp; omega, ?_⟩
      · rw [hstep, heq]
        have h2 : (seq ++ [kaprekar_step current]) ++ t = seq ++ kaprekar_step current :: t := by
          simp
        have h1 : steps + 1 + t.length = steps + (kaprekar_step current :: t).length := by
          simp; omega
        rw [h2, h1]
      · intro hchain
        have hb : List.Chain' (fun x y => y = kaprekar_step x) (seq ++ [kaprekar_step current]) := by
          rw [List.chain'_append]
          refine ⟨hchain, List.chain'_singleton _, ?_⟩
          intro x hx y hy
          rw [hlast] at hx
          simp only [Option.mem_def, Option.some_inj] at hx
          simp only [List.head?_cons, Option.mem_def, Option.some_inj] at hy
          subst hx; subst hy
          rfl
        have := hch hb
        simpa using this

theorem explore_spec (starting_number max_steps : Nat) :
    ∃ t : List Nat,
      explore_kaprekar starting_number max_steps =
          (t.length, starting_number :: t,
            decide ((starting_number :: t).getLast? = some 6174)) ∧
      t.length ≤ max_steps ∧
      List.Chain' (fun x y => y = kaprekar_step x) (starting_number :: t) := by
  obtain ⟨t, heq, hlen, hch⟩ :=
    exploreLoop_spec max_steps starting_number 0 [starting_number] (by simp)
  refine ⟨t, ?_, hlen, ?_⟩
  · simpa [explore_kaprekar] using heq
  · simpa using hch (List.chain'_singleton _)

/-! ### Claim theorems about the step and the exploration loop -/

/-- C1 counterexample: `explore(start=3524, maxSteps=50)` does not return 5
steps with sequence `[3524, 3087, 8352, 8532, 6174]` — the program converges
in 3 steps and 8532 is never an element of the sequence (it is the
descending-sorted intermediate `A` of 8352, not a sequence member). -/
theorem c1_counterexample :
    explore_kaprekar 3524 50 ≠ (5, [3524, 3087, 8352, 8532, 6174], true) := by decide

/-- C1 (amended): `explore(start=3524, maxSteps=50)` converges to 6174 in
exactly 3 steps, with sequence `[3524, 3087, 8352, 6174]` and the converged
flag set. -/
theorem c1_explore_3524 :
    explore_kaprekar 3524 50 = (3, [3524, 3087, 8352, 6174], true) := by decide

/-- C4: `explore(start=6174, maxSteps=50)` returns sequence `[6174]`, the
converged outcome, and a step count of 0 — the 6174 check stops the loop
before any step is counted. -/
theorem c4_explore_6174 :
    explore_kaprekar 6174 50 = (0, [6174], true) := by decide

/-- C5: for every run of `explore_kaprekar`, the returned sequence begins with
the starting number, every subsequent element is `kaprekar_step` of its
predecessor, and the returned step count equals the sequence length minus 1. -/
theorem c5_sequence_invariant (starting_number max_steps : Nat) :
    (explore_kaprekar starting_number max_steps).2.1.head? = some starting_number ∧
    List.Chain' (fun x y => y = kaprekar_step x)
      (explore_kaprekar starting_number max_steps).2.1 ∧
    (explore_kaprekar starting_number max_steps).1 =
      (explore_kaprekar starting_number max_steps).2.1.length - 1 := by
  obtain ⟨t, heq, -, hch⟩ := explore_spec starting_number max_steps
  rw [heq]
  exact ⟨rfl, hch, by simp⟩

/-- C6: for every starting number and step bound, the returned flag is true
(outcome Converged) exactly when the last element of the returned sequence is
6174; otherwise the flag is false (outcome StepLimitReached). -/
theorem c6_outcome_iff (starting_number max_steps : Nat) :
    (explore_kaprekar starting_number max_steps).2.2 = true ↔
      (explore_kaprekar starting_number max_steps).2.1.getLast? = some 6174 := by
  obtain ⟨t, heq, -, -⟩ := explore_spec starting_number max_steps
  rw [heq]
  simp

/-- C7: 6174 is a fixed point of the digit transform: the descending sort is
7641, the ascending sort is 1467, and their difference is 6174 again. -/
theorem c7_fixed_point :
    A 6174 = 7641 ∧ B 6174 = 1467 ∧ kaprekar_step 6174 = 6174 := by decide

/-- C8: with `maxSteps = 0` and a start different from 6174, the loop body
never executes: the result is 0 steps, sequence `[start]`, and the
step-limit-reached outcome (flag false). -/
theorem c8_zero_steps (starting_number : Nat) (h : starting_number ≠ 6174) :
    explore_kaprekar starting_number 0 = (0, [starting_number], false) := by
  simp [explore_kaprekar, exploreLoop, h]

/-- Witness for C8 at the concrete start 1234. -/
theorem c8_zero_steps_witness :
    (1234 : Nat) ≠ 6174 ∧ explore_kaprekar 1234 0 = (0, [1234], false) :=
  ⟨by decide, c8_zero_steps 1234 (by decide)⟩

/-- C9: exploration is bounded — the sequence has at most `maxSteps + 1`
elements and the returned step count is at most `maxSteps`, for every start
and ceiling (the embedding is a total function, so no run fails). -/
theorem c9_bounded (starting_number max_steps : Nat) :
    (explore_kaprekar starting_number max_steps).2.1.length ≤ max_steps + 1 ∧
    (explore_kaprekar starting_number max_steps).1 ≤ max_steps := by
  obtain ⟨t, heq, hlen, -⟩ := explore_spec starting_number max_steps
  rw [heq]
  constructor
  · simp only [List.length_cons]
    omega
  · exact hlen

/-- C10: for every `n ≤ 9999`, the ascending-sorted value never exceeds the
descending-sorted value, the step result stays at most 9999, and the `Nat`
subtraction in `kaprekar_step` agrees with exact integer subtraction. -/
theorem c10_step_range (n : Nat) (h : n ≤ 9999) :
    B n ≤ A n ∧ kaprekar_step n ≤ 9999 ∧
      (kaprekar_step n : Int) = (A n : Int) - (B n : Int) := by
  obtain ⟨hba, ha⟩ := B_le_A n h
  refine ⟨hba, le_trans (Nat.sub_le _ _) ha, ?_⟩
  simpa [kaprekar_step] using (Nat.cast_sub hba : ((A n - B n : Nat) : Int) = _)

/-- Witness for C10 at the concrete input 3524. -/
theorem c10_step_range_witness :
    B 3524 ≤ A 3524 ∧ kaprekar_step 3524 ≤ 9999 ∧
      (kaprekar_step 3524 : Int) = (A 3524 : Int) - (B 3524 : Int) :=
  c10_step_range 3524 (by norm_num)

/-! ### Characters, parsing and printing -/

theorem digitChar_isDigit {d : Nat} (h : d < 10) : (digitChar d).isDigit = true := by
  interval_cases d <;> decide

theorem digitVal_digitChar {d : Nat} (h : d < 10) : digitVal (digitChar d) = d := by
  interval_cases d <;> decide

theorem digitChar_not_space {d : Nat} (h : d < 10) : isPySpace (digitChar d) = false := by
  interval_cases d <;> decide

theorem digitChar_ne_plus {d : Nat} (h : d < 10) : digitChar d ≠ '+' := by
  interval_cases d <;> decide

theorem digitChar_ne_minus {d : Nat} (h : d < 10) : digitChar d ≠ '-' := by
  interval_cases d <;> decide

theorem dropWhile_eq_self_of (p : Char → Bool) (l : List Char)
    (h : ∀ c ∈ l, p c = false) : l.dropWhile p = l := by
  cases l with
  | nil => rfl
  | cons c cs =>
    rw [List.dropWhile_cons, h c (List.mem_cons_self c cs)]
    simp

theorem pyStrip_eq_self (l : List Char) (h : ∀ c ∈ l, isPySpace c = false) :
    pyStrip l = l := by
  rw [pyStrip, dropWhile_eq_self_of _ l h,
    dropWhile_eq_self_of _ l.reverse (fun c hc => h c (List.mem_reverse.mp hc))]
  exact List.reverse_reverse l

theorem parseDigitsAux_digits :
    ∀ (ds : List Nat), (∀ d ∈ ds, d < 10) → ∀ acc : Nat,
      parseDigitsAux acc (ds.map digitChar) =
        some (ds.foldl (fun x d => 10 * x + d) acc) := by
  intro ds
  induction ds with
  | nil => intro _ acc; rfl
  | cons d rest ih =>
    intro h acc
    have hd : d < 10 := h d (List.mem_cons_self d rest)
    have hrest : ∀ x ∈ rest, x < 10 := fun x hx => h x (List.mem_cons_of_mem d hx)
    cases rest with
    | nil =>
      simp [parseDigitsAux, digitChar_isDigit hd, digitVal_digitChar hd]
    | cons r rest2 =>
      simp only [List.map_cons, List.foldl_cons]
      rw [parseDigitsAux.eq_3, digitChar_isDigit hd, digitVal_digitChar hd]
      simp only [if_true]
      have := ih hrest (10 * acc + d)
      simpa using this

theorem parseDigits_digits (ds : List Nat) (h : ∀ d ∈ ds, d < 10) (hne : ds ≠ []) :
    parseDigits (ds.map digitChar) = some (ofDigits ds) := by
  cases ds with
  | nil => exact absurd rfl hne
  | cons d rest =>
    have hd : d < 10 := h d (List.mem_cons_self d rest)
    simp only [List.map_cons, parseDigits, digitChar_isDigit hd,
      digitVal_digitChar hd, if_true]
    rw [parseDigitsAux_digits rest (fun x hx => h x (List.mem_cons_of_mem d hx)) d]
    congr 1
    simp [ofDigits]

theorem pyInt_natRepr (v : Nat) (hv0 : v ≠ 0) : pyInt (natRepr v) = some (v : Int) := by
  have hlt : ∀ d ∈ (toDigitsRev v).reverse, d < 10 :=
    fun d hd => toDigitsRevAux_lt_ten v v d (List.mem_reverse.mp hd)
  have hval : ofDigits (toDigitsRev v).reverse = v := ofDigits_toDigitsRev_reverse v
  have hne : (toDigitsRev v).reverse ≠ [] := by
    intro hnil
    rw [hnil] at hval
    simp [ofDigits] at hval
    exact hv0 hval.symm
  obtain ⟨c, rest, hcons⟩ : ∃ c rest, (toDigitsRev v).reverse = c :: rest := by
    cases hl : (toDigitsRev v).reverse with
    | nil => exact absurd hl hne
    | cons c rest => exact ⟨c, rest, rfl⟩
  have hc10 : c < 10 := hlt c (by rw [hcons]; exact List.mem_cons_self c rest)
  have hdata : (natRepr v).data = ((toDigitsRev v).reverse.map digitChar) := by
    rw [natRepr, if_neg hv0]
  have hstrip : pyStrip ((natRepr v).data) = (toDigitsRev v).reverse.map digitChar := by
    rw [hdata]
    refine pyStrip_eq_self _ (fun ch hch => ?_)
    obtain ⟨d, hd, rfl⟩ := List.mem_map.mp hch
    exact digitChar_not_space (hlt d hd)
  rw [pyInt, hstrip, hcons]
  simp only [List.map_cons, pyIntAux]
  rw [if_neg (digitChar_ne_plus hc10), if_neg (digitChar_ne_minus hc10),
    ← List.map_cons, ← hcons, parseDigits_digits _ hlt hne, hval]
  rfl

/-! ### Validator lemmas and claim theorems -/

theorem dedup_length_ne (l : List Nat) (hlen : l.length = 4) (hnd : ¬ l.Nodup) :
    l.dedup.length ≠ 4 := by
  intro h4
  apply hnd
  have hsub := List.dedup_sublist l
  have heq : l.dedup = l := hsub.eq_of_length (by rw [h4, hlen])
  rw [← heq]
  exact List.nodup_dedup l

/-- C2: the validator applies its three checks in order — parse failure gives
NotANumber; a parsed value outside `[1000, 9999]` gives WrongDigitCount; a
value in range whose four zero-padded digits repeat gives RepeatedDigits. -/
theorem c2_validator_order (s : String) :
    (pyInt s = none → validate_input s = Except.error ValidationError.NotANumber) ∧
    (∀ v : Int, pyInt s = some v → (v < 1000 ∨ 9999 < v) →
      validate_input s = Except.error ValidationError.WrongDigitCount) ∧
    (∀ v : Int, pyInt s = some v → 1000 ≤ v → v ≤ 9999 →
      ¬ (digitStr v.toNat).Nodup →
      validate_input s = Except.error ValidationError.RepeatedDigits) := by
  refine ⟨fun h => by simp [validate_input, h],
    fun v hv hrange => ?_, fun v hv hlo hhi hnd => ?_⟩
  · simp only [validate_input, hv]
    rw [if_pos hrange]
  · simp only [validate_input, hv]
    rw [if_neg (by omega : ¬(v < 1000 ∨ 9999 < v))]
    rw [if_pos (dedup_length_ne _ (digitStr_length v.toNat (by omega)) hnd)]

/-- Witness for C2 at three concrete inputs, one per failing check. -/
theorem c2_validator_order_witness :
    validate_input ("abc") = Except.error ValidationError.NotANumber ∧
    validate_input ("12") = Except.error ValidationError.WrongDigitCount ∧
    validate_input ("1121") = Except.error ValidationError.RepeatedDigits :=
  ⟨(c2_validator_order ("abc")).1 (by decide),
   (c2_validator_order ("12")).2.1 12 (by decide) (by decide),
   (c2_validator_order ("1121")).2.2 1121 (by decide) (by decide) (by decide) (by decide)⟩

/-- C3: for every 4-digit value with pairwise-distinct digits, the validator
accepts its textual form and returns exactly that value. -/
theorem c3_validator_accepts (v : Nat) (h1 : 1000 ≤ v) (h2 : v ≤ 9999)
    (h3 : (digitStr v).Nodup) :
    validate_input (natRepr v) = Except.ok (v : Int) := by
  have hp : pyInt (natRepr v) = some (v : Int) := pyInt_natRepr v (by omega)
  simp only [validate_input, hp]
  rw [if_neg (by omega : ¬((v : Int) < 1000 ∨ 9999 < (v : Int)))]
  rw [if_neg ?_]
  have htoNat : ((v : Int)).toNat = v := Int.toNat_natCast v
  rw [htoNat, List.dedup_eq_self.mpr h3, digitStr_length v h2]
  simp

/-- Witness for C3 at the concrete input 3524. -/
theorem c3_validator_accepts_witness :
    validate_input (natRepr 3524) = Except.ok ((3524 : Nat) : Int) :=
  c3_validator_accepts 3524 (by norm_num) (by norm_num) (by decide)

end KaprekarExplorer
